import Mathlib

/-!
Verification of the APEX variant-management core of `android/apex.go`
(package `android` of the Soong build system fork).

The Go source is shallowly embedded: each function below mirrors the
corresponding Go function; stateful methods are embedded as explicit
state-passing functions over the value types they mutate.  Machine
integers are modelled as `Int`/`Nat` (none of the arithmetic here can
overflow: API levels are small).  Fallible Go functions returning
`(T, error)` are embedded as `Except`-valued functions.
-/

/- ------------------------------------------------------------------
Byte-wise lexicographic string ordering.

Go compares strings byte-wise (`<` on `string`, used by `sort.Strings`
and the `byApexName` sort).  For UTF-8 encoded strings the byte order
coincides with the code-point order, so we embed it as lexicographic
comparison of the character lists.  (Lean's own `String.decidableLT`
is defined by well-founded recursion over iterators and does not
reduce in the kernel, hence this structural definition.)
------------------------------------------------------------------ -/

/-- Lexicographic strict order on character lists, mirroring Go's
byte-wise `<` on strings (UTF-8 byte order equals code-point order). -/
def charsLt : List Char → List Char → Bool
  | [], [] => false
  | [], _ :: _ => true
  | _ :: _, [] => false
  | a :: as, b :: bs => if a < b then true else if b < a then false else charsLt as bs

/-- Strict order on strings: Go's `s < t`. -/
def strLt (a b : String) : Bool := charsLt a.data b.data

/-- `a <= b` on strings, i.e. the negation of `b < a`. -/
def strLe (a b : String) : Bool := !(strLt b a)

/-- `strings.HasPrefix s p`: byte-wise prefix test, i.e. prefix test on
the character lists. -/
def strHasPre (s p : String) : Bool := p.data.isPrefixOf s.data

/-- One decimal digit. -/
def decDigit (c : Char) : Option Nat :=
  if 48 ≤ c.toNat && c.toNat ≤ 57 then some (c.toNat - 48) else none

/-- Accumulating decimal parse of a digit list. -/
def decDigitsAux (acc : Nat) : List Char → Option Nat
  | [] => some acc
  | c :: cs =>
      match decDigit c with
      | some d => decDigitsAux (acc * 10 + d) cs
      | none => none

/-- Parse a non-empty all-digit string as a decimal numeral (the
fragment of `strconv.Atoi` the API-level parser relies on). -/
def parseDecimal (s : String) : Option Nat :=
  match s.data with
  | [] => none
  | c :: cs => decDigitsAux 0 (c :: cs)

/- ------------------------------------------------------------------
API levels.

Modelled from the spec: the `ApiLevel` type and its helpers
(`uncheckedFinalApiLevel`, `ApiLevelFromUser`, `FinalOrFutureInt`,
`LessThanOrEqualTo`, `GreaterThan`, `IsCurrent`) live in
`android/api_levels.go`, which is not part of the provided sources.
Per the spec (sections 3 and 4.1) an API level is a comparable value
with a numeric form; "current" denotes the unfinalized future level
(numeric form 10000, preview); a candidate string either parses to a
level or fails to parse.  We model a level as its number plus a
preview flag, comparisons as comparisons of the numbers, and parsing
as accepting "current" and decimal numerals.
------------------------------------------------------------------ -/

/-- Modelled from the spec: an API level is a numeric value plus a
preview flag (`android/api_levels.go` is not in the provided sources). -/
structure ApiLevel where
  number : Int
  isPreview : Bool
deriving DecidableEq

/-- The numeric form of the unfinalized future API level. -/
def futureApiLevelInt : Int := 10000

/-- Modelled from the spec: the "current" (unfinalized) API level. -/
def currentApiLevel : ApiLevel := { number := futureApiLevelInt, isPreview := true }

/-- Modelled from the spec: build a finalized API level from an integer
(`uncheckedFinalApiLevel` in `android/api_levels.go`). -/
def uncheckedFinalApiLevel (n : Int) : ApiLevel := { number := n, isPreview := false }

/-- Modelled from the spec: `ApiLevel.FinalOrFutureInt` — the number for
finalized levels, the future sentinel for preview levels. -/
def ApiLevel.FinalOrFutureInt (a : ApiLevel) : Int :=
  if a.isPreview then futureApiLevelInt else a.number

/-- Modelled from the spec: `ApiLevel.LessThanOrEqualTo` compares the
numeric forms. -/
def ApiLevel.LessThanOrEqualTo (a b : ApiLevel) : Bool := a.number ≤ b.number

/-- Modelled from the spec: `ApiLevel.GreaterThan` compares the numeric
forms. -/
def ApiLevel.GreaterThan (a b : ApiLevel) : Bool := a.number > b.number

/-- Modelled from the spec: `ApiLevel.IsCurrent` tests for the "current"
level. -/
def ApiLevel.IsCurrent (a : ApiLevel) : Bool := a == currentApiLevel

/-- Errors produced while choosing an SDK version.  `parseError` stands
for the error value returned by `ApiLevelFromUser` for an unparseable
candidate (that function receives only the single candidate string, so
its error cannot mention the whole candidate list); `notFound` stands
for the error built by `fmt.Errorf` in `ChooseSdkVersion`, which embeds
the ceiling and the full candidate list. -/
inductive SdkError where
  | parseError (versionString : String)
  | notFound (maxSdkVersion : ApiLevel) (versionList : List String)
deriving DecidableEq

/-- The literal string "current". -/
def currentString : String := "current"

/-- Modelled from the spec: `ApiLevelFromUser` parses a user-supplied
version string: "current" denotes the future level, decimal numerals
denote finalized levels, anything else fails to parse
(`android/api_levels.go` is not in the provided sources). -/
def ApiLevelFromUser (s : String) : Except SdkError ApiLevel :=
  if s == currentString then Except.ok currentApiLevel
  else
    match parseDecimal s with
    | some n => Except.ok (uncheckedFinalApiLevel n)
    | none => Except.error (SdkError.parseError s)

/- ------------------------------------------------------------------
The requirement value model: `ApexInfo`.
------------------------------------------------------------------ -/

/-- `ApexInfo` from `android/apex.go`: one bundle-specific build
requirement.  `RequiredSdks` entries are (Name, Version) pairs
(`SdkRef`). -/
structure ApexInfo where
  ApexVariationName : String
  MinSdkVersionStr : String
  Updatable : Bool
  RequiredSdks : List (String × String)
  InApexes : List String
deriving DecidableEq, Inhabited

/-- The literal string "apex". -/
def apexLit : String := "apex"

/-- The literal string "_". -/
def underscoreLit : String := "_"

/-- `ApexInfo.MinSdkVersion` parses `MinSdkVersionStr` via
`ApiLevelOrPanic`.  The Go code panics on an unparseable string; the
embedding totalizes that case with the current level (no theorem below
depends on the behaviour at inputs on which the Go code would crash). -/
def ApexInfo.MinSdkVersion (i : ApexInfo) : ApiLevel :=
  match ApiLevelFromUser i.MinSdkVersionStr with
  | Except.ok a => a
  | Except.error _ => currentApiLevel

/-- `ApexInfo.mergedName`: the merge key — "apex" plus the numeric form
of the minimum SDK version, plus each required SDK's name and version
in list order, separated by underscores. -/
def ApexInfo.mergedName (i : ApexInfo) : String :=
  let name := apexLit ++ toString i.MinSdkVersion.FinalOrFutureInt
  i.RequiredSdks.foldl (fun n sdk => n ++ underscoreLit ++ sdk.1 ++ underscoreLit ++ sdk.2) name

/- ------------------------------------------------------------------
Sorting, mirroring `sort.Sort(byApexName(...))` and `sort.Strings`.

Go's `sort.Sort` is an unstable comparison sort; it is specified only
up to producing a sorted permutation.  We embed it as insertion sort;
for the inputs the proofs below care about (distinct keys, or plain
strings where equal elements are identical) the sorted permutation is
unique, so the embedding agrees with any correct implementation.
------------------------------------------------------------------ -/

/-- The comparison used by `byApexName.Less`, as a total preorder. -/
def apexNameLe (a b : ApexInfo) : Prop := strLe a.ApexVariationName b.ApexVariationName = true

instance : DecidableRel apexNameLe := fun a b => by unfold apexNameLe; infer_instance

/-- `sort.Sort(byApexName(apexVariations))`. -/
def sortByApexName (l : List ApexInfo) : List ApexInfo := List.insertionSort apexNameLe l

/-- The string order as a relation, for `sort.Strings`. -/
def strLeRel (a b : String) : Prop := strLe a b = true

instance : DecidableRel strLeRel := fun a b => by unfold strLeRel; infer_instance

/-- `sort.Strings`. -/
def sortStrings (l : List String) : List String := List.insertionSort strLeRel l

/- ------------------------------------------------------------------
The variation merge engine: `mergeApexVariations`.
------------------------------------------------------------------ -/

/-- `CopyOf` makes a defensive copy of a slice; on immutable values it
is the identity. -/
def CopyOf (l : List String) : List String := l

/-- First index satisfying a predicate.  The Go code keeps a map
`seen : mergedName -> index into merged`; since every entry of
`merged` has its `ApexVariationName` set to its merge key at insertion
time and keys are never inserted twice, `seen[k]` is exactly the index
of the unique entry of `merged` whose `ApexVariationName` equals `k`,
which is what this lookup computes. -/
def findIndex (p : ApexInfo → Bool) : List ApexInfo → Option Nat
  | [] => none
  | a :: t => if p a then some 0 else (findIndex p t).map (· + 1)

/-- In-place update of the element at an index, as a functional list
update (`merged[index].InApexes = append(...)` in the source). -/
def modifyIdx (f : ApexInfo → ApexInfo) : Nat → List ApexInfo → List ApexInfo
  | _, [] => []
  | 0, a :: t => f a :: t
  | n + 1, a :: t => a :: modifyIdx f n t

/-- One iteration of the loop body of `mergeApexVariations`: fold the
next `apexInfo` into the accumulated `(merged, aliases)` state. -/
def mergeOne (st : List ApexInfo × List (String × String)) (apexInfo : ApexInfo) :
    List ApexInfo × List (String × String) :=
  let apexName := apexInfo.ApexVariationName
  let mName := apexInfo.mergedName
  match findIndex (fun e => e.ApexVariationName == mName) st.1 with
  | some index =>
      (modifyIdx (fun e =>
          { e with InApexes := e.InApexes ++ [apexName],
                   Updatable := e.Updatable || apexInfo.Updatable }) index st.1,
       st.2 ++ [(apexName, mName)])
  | none =>
      (st.1 ++ [{ apexInfo with ApexVariationName := apexInfo.mergedName,
                                InApexes := CopyOf apexInfo.InApexes }],
       st.2 ++ [(apexName, mName)])

/-- `mergeApexVariations`: sort the requirements by variation name,
then fold them into a deduplicated list of merged variations plus an
alias list from original variation names to merged names. -/
def mergeApexVariations (apexVariations : List ApexInfo) :
    List ApexInfo × List (String × String) :=
  (sortByApexName apexVariations).foldl mergeOne ([], [])

/- ------------------------------------------------------------------
Specification-side description of the merge fold, used to characterize
`mergeApexVariations` (proved equal to the fold below).
------------------------------------------------------------------ -/

/-- The merge key of a requirement. -/
def keyOf (a : ApexInfo) : String := a.mergedName

/-- The distinct merge keys of a processed prefix, in first-occurrence
order — exactly the key set of the source's `seen` map. -/
def dedupKeys (p : List ApexInfo) : List String :=
  p.foldl (fun ks a => if ks.contains (keyOf a) then ks else ks ++ [keyOf a]) []

/-- The merged entry produced from a representative requirement and the
later requirements folded into it: the variation name becomes the merge
key, each later requirement contributes its variation name to
`InApexes`, and the `Updatable` flags are OR-ed together. -/
def groupEntry (rep : ApexInfo) (rest : List ApexInfo) : ApexInfo :=
  { rep with
    ApexVariationName := keyOf rep,
    InApexes := rep.InApexes ++ rest.map (·.ApexVariationName),
    Updatable := rest.foldl (fun u a => u || a.Updatable) rep.Updatable }

/-- The merged entry for key `k` of a processed list `p`. -/
def groupFor (p : List ApexInfo) (k : String) : ApexInfo :=
  match p.filter (fun a => keyOf a == k) with
  | rep :: rest => groupEntry rep rest
  | [] => default

/-- Specification form of the merged output for a processed list. -/
def mergedOf (p : List ApexInfo) : List ApexInfo := (dedupKeys p).map (groupFor p)

/-- Specification form of the alias output for a processed list. -/
def aliasesOf (p : List ApexInfo) : List (String × String) :=
  p.map (fun a => (a.ApexVariationName, keyOf a))

/- ------------------------------------------------------------------
The SDK level resolver: `ChooseSdkVersion`.
------------------------------------------------------------------ -/

/-- The scan loop of `ChooseSdkVersion`: the Go code iterates `i` from
`0` to `len-1` reading `versionList[len-i-1]`, i.e. it processes the
reversed list; this helper processes that reversed list. -/
def chooseSdkVersionLoop (maxSdkVersion : ApiLevel) (versionList : List String) :
    List String → Except SdkError String
  | [] => Except.error (SdkError.notFound maxSdkVersion versionList)
  | version :: rest =>
      match ApiLevelFromUser version with
      | Except.error e => Except.error e
      | Except.ok ver =>
          if ver.LessThanOrEqualTo maxSdkVersion then Except.ok version
          else chooseSdkVersionLoop maxSdkVersion versionList rest

/-- `ChooseSdkVersion`: scan the candidate list from the last element
toward the first and return the first candidate whose parsed level is
at most the ceiling; propagate a parse error; report `notFound` (with
the ceiling and the full list) when the scan is exhausted. -/
def ChooseSdkVersion (versionList : List String) (maxSdkVersion : ApiLevel) :
    Except SdkError String :=
  chooseSdkVersionLoop maxSdkVersion versionList versionList.reverse

/- ------------------------------------------------------------------
The availability predicate: `CheckAvailableForApex`.
------------------------------------------------------------------ -/

/-- `AvailableToPlatform`. -/
def AvailableToPlatform : String := "//apex_available:platform"

/-- `AvailableToAnyApex`. -/
def AvailableToAnyApex : String := "//apex_available:anyapex"

/-- `AvailableToGkiApex`. -/
def AvailableToGkiApex : String := "com.android.gki.*"

/-- The reserved GKI module-name lead-in, "com.android.gki.". -/
def gkiNameHead : String := "com.android.gki."

/-- `InList` (string-slice membership helper from `android/util.go`,
semantics fixed by its callers: linear membership test). -/
def InList (s : String) (l : List String) : Bool := l.contains s

/-- `CheckAvailableForApex`: the availability predicate. -/
def CheckAvailableForApex (what : String) (apex_available : List String) : Bool :=
  if apex_available.length == 0 then what == AvailableToPlatform
  else
    InList what apex_available ||
    (what != AvailableToPlatform && InList AvailableToAnyApex apex_available) ||
    (strHasPre what gkiNameHead && InList AvailableToGkiApex apex_available)

/- ------------------------------------------------------------------
Requirement registration: `BuildForApex`.
------------------------------------------------------------------ -/

/-- `ApexModuleBase.BuildForApex` as a transition on the accumulated
requirement list (`m.apexVariations`): the Go loop returns early when
some stored requirement has the same variation name, otherwise appends
the new requirement.  The mutex only serializes concurrent calls; each
call's effect is this function. -/
def BuildForApex (apexVariations : List ApexInfo) (apex : ApexInfo) : List ApexInfo :=
  if apexVariations.any (fun v => v.ApexVariationName == apex.ApexVariationName) then
    apexVariations
  else apexVariations ++ [apex]

/- ------------------------------------------------------------------
The variant mutation driver: `CreateApexVariations`.
------------------------------------------------------------------ -/

/-- The variant-label computation of `ApexModuleBase.CreateApexVariations`:
given the module's uniqueness flags and accumulated requirements,
produce the ordered list of variation labels passed to
`mctx.CreateVariations` (the empty platform label first), together with
the requirement list the non-platform labels are taken from.  Graph
mutation itself (`CreateVariations`, alias registration, the
availability check) is performed by the external mutator context; the
label sequence below determines the number and order of the created
variants. -/
def CreateApexVariationsLabels (uniqueApexVariations uniqueApexVariationsForDeps : Bool)
    (apexVariations : List ApexInfo) : List String :=
  if apexVariations.length > 0 then
    let merged :=
      if !uniqueApexVariations && !uniqueApexVariationsForDeps then
        (mergeApexVariations apexVariations).1
      else apexVariations
    let sortedVariations := sortByApexName merged
    [""] ++ sortedVariations.map (·.ApexVariationName)
  else []

/-- The requirement list whose entries back the non-platform variants in
`CreateApexVariations` (merged unless a uniqueness flag is set). -/
def mergedRequirements (uniqueApexVariations uniqueApexVariationsForDeps : Bool)
    (apexVariations : List ApexInfo) : List ApexInfo :=
  if !uniqueApexVariations && !uniqueApexVariationsForDeps then
    (mergeApexVariations apexVariations).1
  else apexVariations

/- ------------------------------------------------------------------
Uniqueness propagation: `UpdateUniqueApexVariationsForDeps`.
------------------------------------------------------------------ -/

/-- `collectApexes` inside `UpdateUniqueApexVariationsForDeps`: the
concatenation of the `InApexes` lists of a module's accumulated
requirements. -/
def collectApexes (infos : List ApexInfo) : List String :=
  infos.foldl (fun ret info => ret ++ info.InApexes) []

/-- `sort.SearchStrings l x`: the least index `i` with `l[i] >= x`.
On a sorted list this is the length of the prefix of elements below
`x`, which is what the stdlib binary search computes. -/
def searchStrings (l : List String) (x : String) : Nat :=
  (l.takeWhile (fun s => strLt s x)).length

/-- `anyInSameApex`: do the two requirement lists mention a common
concrete bundle name?  Mirrors the source: collect both `InApexes`
unions, sort the second, and binary-search it for each element of the
first. -/
def anyInSameApex (a b : List ApexInfo) : Bool :=
  let aApexes := collectApexes a
  let bApexes := sortStrings (collectApexes b)
  aApexes.any (fun aApex =>
    let index := searchStrings bApexes aApex
    decide (index < bApexes.length) && (bApexes.getD index default == aApex))

/-- The per-module state `UpdateUniqueApexVariationsForDeps` reads and
writes: the accumulated requirements, the module's own
`UniqueApexVariations()` answer, and the propagated
`UniqueApexVariationsForDeps` property. -/
structure ApexModuleState where
  apexVariations : List ApexInfo
  uniqueApexVariations : Bool
  uniqueApexVariationsForDeps : Bool
deriving DecidableEq

/-- `UpdateUniqueApexVariationsForDeps`: visit each direct dependency
(`none` stands for a dependency that is not an `ApexModule`); when a
dependency shares a bundle and itself needs unique variants (declared
or propagated), raise the module's propagated flag. -/
def UpdateUniqueApexVariationsForDeps (m : ApexModuleState)
    (deps : List (Option ApexModuleState)) : ApexModuleState :=
  deps.foldl
    (fun acc dep =>
      match dep with
      | some depApexModule =>
          if anyInSameApex depApexModule.apexVariations acc.apexVariations &&
              (depApexModule.uniqueApexVariations ||
                depApexModule.uniqueApexVariationsForDeps) then
            { acc with uniqueApexVariationsForDeps := true }
          else acc
      | none => acc)
    m

/- ------------------------------------------------------------------
The global dependency registry: `UpdateApexDependency`.
------------------------------------------------------------------ -/

/-- The registry `apexNamesMap`, read through Go map semantics where a
missing entry reads as the zero value `false`
(`registry moduleName bundleName`). -/
def Registry : Type := String → String → Bool

/-- The empty registry. -/
def emptyRegistry : Registry := fun _ _ => false

/-- Point update of the registry. -/
def regSet (r : Registry) (moduleName bundleName : String) (v : Bool) : Registry :=
  fun m b => if m == moduleName && b == bundleName then v else r m b

/-- `UpdateApexDependency`: first OR the direct flag into the entry for
the requirement's own variation name; then, for each name in
`InApexes`, write `registry[moduleName][apex.ApexVariationName] || directDep`
into that name's entry — note the loop body re-reads the own-variation
entry, exactly as the source line
`apexesForModule[apexName] = apexesForModule[apex.ApexVariationName] || directDep`
does. -/
def UpdateApexDependency (r : Registry) (apex : ApexInfo) (moduleName : String)
    (directDep : Bool) : Registry :=
  let r1 := regSet r moduleName apex.ApexVariationName
    (r moduleName apex.ApexVariationName || directDep)
  apex.InApexes.foldl
    (fun acc apexName =>
      regSet acc moduleName apexName (acc moduleName apex.ApexVariationName || directDep))
    r1

/- ------------------------------------------------------------------
Payload walk / min-SDK enforcement: `CheckMinSdkVersion`.
------------------------------------------------------------------ -/

/-- The raw (name, finalized API int) table behind
`minSdkVersionAllowlist`, transcribed from the source. -/
def minSdkVersionAllowlistTable : List (String × Int) :=
  [("adbd", 30),
   ("android.net.ipsec.ike", 30),
   ("androidx-constraintlayout_constraintlayout-solver", 30),
   ("androidx.annotation_annotation", 28),
   ("androidx.arch.core_core-common", 28),
   ("androidx.collection_collection", 28),
   ("androidx.lifecycle_lifecycle-common", 28),
   ("apache-commons-compress", 29),
   ("bouncycastle_ike_digests", 30),
   ("brotli-java", 29),
   ("captiveportal-lib", 28),
   ("flatbuffer_headers", 30),
   ("framework-permission", 30),
   ("framework-statsd", 30),
   ("gemmlowp_headers", 30),
   ("ike-internals", 30),
   ("kotlinx-coroutines-android", 28),
   ("kotlinx-coroutines-core", 28),
   ("libadb_crypto", 30),
   ("libadb_pairing_auth", 30),
   ("libadb_pairing_connection", 30),
   ("libadb_pairing_server", 30),
   ("libadb_protos", 30),
   ("libadb_tls_connection", 30),
   ("libadbconnection_client", 30),
   ("libadbconnection_server", 30),
   ("libadbd_core", 30),
   ("libadbd_services", 30),
   ("libadbd", 30),
   ("libapp_processes_protos_lite", 30),
   ("libasyncio", 30),
   ("libbrotli", 30),
   ("libbuildversion", 30),
   ("libcrypto_static", 30),
   ("libcrypto_utils", 30),
   ("libdiagnose_usb", 30),
   ("libeigen", 30),
   ("liblz4", 30),
   ("libmdnssd", 30),
   ("libneuralnetworks_common", 30),
   ("libneuralnetworks_headers", 30),
   ("libneuralnetworks", 30),
   ("libprocpartition", 30),
   ("libprotobuf-java-lite", 30),
   ("libprotoutil", 30),
   ("libqemu_pipe", 30),
   ("libstats_jni", 30),
   ("libstatslog_statsd", 30),
   ("libstatsmetadata", 30),
   ("libstatspull", 30),
   ("libstatssocket", 30),
   ("libsync", 30),
   ("libtextclassifier_hash_headers", 30),
   ("libtextclassifier_hash_static", 30),
   ("libtflite_kernel_utils", 30),
   ("libwatchdog", 29),
   ("libzstd", 30),
   ("metrics-constants-protos", 28),
   ("net-utils-framework-common", 29),
   ("permissioncontroller-statsd", 28),
   ("philox_random_headers", 30),
   ("philox_random", 30),
   ("service-permission", 30),
   ("service-statsd", 30),
   ("statsd-aidl-ndk_platform", 30),
   ("statsd", 30),
   ("tensorflow_headers", 30),
   ("xz-java", 29)]

/-- `minSdkVersionAllowlist`: the grandfathering allow-list, each entry
mapped through `uncheckedFinalApiLevel` (Go map lookup with its
ok-flag, embedded as an `Option`-valued association lookup; the table
keys are distinct, so lookup order is irrelevant). -/
def minSdkVersionAllowlist (name : String) : Option ApiLevel :=
  (minSdkVersionAllowlistTable.lookup name).map uncheckedFinalApiLevel

/-- One edge handed to the `WalkPayloadDeps` callback, with the answers
the callback obtains from its external collaborators: whether the edge
is external, whether `from` implements `DepIsInSameApex` and what that
predicate answers, the result of `to.ShouldSupportSdkVersion`
(`none` = supported), the target's name, and the dependency-path
string `ctx.GetPathString(false)` at this point of the walk. -/
structure PayloadEdge where
  externalDep : Bool
  fromImplementsDepIsInSameApex : Bool
  depIsInSameApex : Bool
  toSupportsError : Option String
  toName : String
  pathString : String
deriving DecidableEq

/-- One reported min-SDK violation: `ctx.OtherModuleErrorf(to, ...)`
identifying the violated level, the offending module, the underlying
reason and the dependency path. -/
structure MinSdkReport where
  toName : String
  minSdkVersion : ApiLevel
  reason : String
  path : String
deriving DecidableEq

/-- The callback body of `CheckMinSdkVersion`'s payload walk: returns
the report raised on this edge (if any) and whether to keep descending
past it. -/
def minSdkCallback (minSdkVersion : ApiLevel) (e : PayloadEdge) :
    Option MinSdkReport × Bool :=
  if e.externalDep then (none, false)
  else if e.fromImplementsDepIsInSameApex && !e.depIsInSameApex then (none, false)
  else
    match e.toSupportsError with
    | some err =>
        match minSdkVersionAllowlist e.toName with
        | none =>
            (some { toName := e.toName, minSdkVersion := minSdkVersion,
                    reason := err, path := e.pathString }, false)
        | some ver =>
            if ver.GreaterThan minSdkVersion then
              (some { toName := e.toName, minSdkVersion := minSdkVersion,
                      reason := err, path := e.pathString }, false)
            else (none, true)
    | none => (none, true)

/-- The payload dependency graph as seen by `WalkPayloadDeps`: a tree
of edges (the walk primitive is externally supplied; it visits an edge
and recurses into the edges below it only when the callback answers
true). -/
inductive DepTree where
  | node (edge : PayloadEdge) (children : List DepTree)

mutual

/-- The reports produced by walking one payload edge and (when the
callback allows descent) the edges below it. -/
def walkTree (minSdkVersion : ApiLevel) : DepTree → List MinSdkReport
  | DepTree.node e cs =>
      match minSdkCallback minSdkVersion e with
      | (r, true) => r.toList ++ walkForest minSdkVersion cs
      | (r, false) => r.toList

/-- The reports produced by walking a list of payload edges in order. -/
def walkForest (minSdkVersion : ApiLevel) : List DepTree → List MinSdkReport
  | [] => []
  | t :: ts => walkTree minSdkVersion t ++ walkForest minSdkVersion ts

end

/-- `CheckMinSdkVersion`: no-op for host builds, coverage builds
(`EMMA_INSTRUMENT` / native / clang coverage, collapsed into one flag)
and unfinalized (`current`) required levels; otherwise walk the payload
dependencies with `minSdkCallback`, collecting the reported
violations. -/
def CheckMinSdkVersion (host coverage : Bool) (minSdkVersion : ApiLevel)
    (deps : List DepTree) : List MinSdkReport :=
  if host then []
  else if coverage then []
  else if minSdkVersion.IsCurrent then []
  else walkForest minSdkVersion deps

/- ------------------------------------------------------------------
Specification-side helper predicates and concrete inputs used by the
theorems below.
------------------------------------------------------------------ -/

/-- A candidate that parses to a level strictly above the ceiling (the
candidates a backward scan of `ChooseSdkVersion` steps over). -/
def parsesAbove (maxSdkVersion : ApiLevel) (w : String) : Bool :=
  match ApiLevelFromUser w with
  | Except.ok aw => !aw.LessThanOrEqualTo maxSdkVersion
  | Except.error _ => false

/-- Requirement "a" for apex a (min SDK 29, member bundle a). -/
def reqA : ApexInfo :=
  { ApexVariationName := "a", MinSdkVersionStr := "29", Updatable := false,
    RequiredSdks := [], InApexes := ["a"] }

/-- Requirement "b" for apex b (min SDK 29, member bundles b and c). -/
def reqBC : ApexInfo :=
  { ApexVariationName := "b", MinSdkVersionStr := "29", Updatable := false,
    RequiredSdks := [], InApexes := ["b", "c"] }

/-- Requirement "a" with min SDK 9. -/
def reqA9 : ApexInfo :=
  { ApexVariationName := "a", MinSdkVersionStr := "9", Updatable := false,
    RequiredSdks := [], InApexes := ["a"] }

/-- Requirement "b" with min SDK 10. -/
def reqB10 : ApexInfo :=
  { ApexVariationName := "b", MinSdkVersionStr := "10", Updatable := false,
    RequiredSdks := [], InApexes := ["b"] }

/-- Requirement "b" with singleton member-bundle list. -/
def reqB : ApexInfo :=
  { ApexVariationName := "b", MinSdkVersionStr := "29", Updatable := false,
    RequiredSdks := [], InApexes := ["b"] }

/-- Requirement "c" with min SDK 30. -/
def reqC30 : ApexInfo :=
  { ApexVariationName := "c", MinSdkVersionStr := "30", Updatable := false,
    RequiredSdks := [], InApexes := ["c"] }

/-- A requirement named "x". -/
def reqX1 : ApexInfo :=
  { ApexVariationName := "x", MinSdkVersionStr := "1", Updatable := false,
    RequiredSdks := [], InApexes := ["x"] }

/-- A different requirement also named "x" (different min SDK,
updatable flag, required SDKs and member bundles). -/
def reqX2 : ApexInfo :=
  { ApexVariationName := "x", MinSdkVersionStr := "2", Updatable := true,
    RequiredSdks := [("s", "1")], InApexes := ["y"] }

/-- A requirement whose variation name is "v" and whose member-bundle
list is ["b1"]. -/
def apexV : ApexInfo :=
  { ApexVariationName := "v", MinSdkVersionStr := "29", Updatable := false,
    RequiredSdks := [], InApexes := ["b1"] }

/-- A requirement whose variation name is "w" and whose member-bundle
list is also ["b1"]. -/
def apexW : ApexInfo :=
  { ApexVariationName := "w", MinSdkVersionStr := "29", Updatable := false,
    RequiredSdks := [], InApexes := ["b1"] }

/-- A non-external, same-bundle payload edge to the allow-listed module
"adbd" whose target does not support the required level. -/
def edgeAdbd : PayloadEdge :=
  { externalDep := false, fromImplementsDepIsInSameApex := true,
    depIsInSameApex := true, toSupportsError := some ("unsupported"),
    toName := "adbd", pathString := "root -> adbd" }

/-- The same edge marked external. -/
def edgeExt : PayloadEdge :=
  { externalDep := true, fromImplementsDepIsInSameApex := true,
    depIsInSameApex := true, toSupportsError := some ("unsupported"),
    toName := "adbd", pathString := "root -> adbd" }

/-- A non-external, same-bundle payload edge to the allow-listed module
"captiveportal-lib" (grandfathered at finalized level 28) whose target
does not support the required level. -/
def edgeCaptive : PayloadEdge :=
  { externalDep := false, fromImplementsDepIsInSameApex := true,
    depIsInSameApex := true, toSupportsError := some ("unsupported"),
    toName := "captiveportal-lib", pathString := "root -> captiveportal-lib" }

/-- A module name used in registry examples. -/
def modNameEx : String := "mod"

/-- A bundle name used in registry examples. -/
def bundleB1 : String := "b1"

/- ------------------------------------------------------------------
Helper lemmas: the byte-wise string order is a decidable total
preorder, and the embedded sorts produce sorted permutations.
------------------------------------------------------------------ -/

theorem charsLt_irrefl : ∀ x : List Char, charsLt x x = false
  | [] => rfl
  | a :: as => by simp [charsLt, lt_irrefl, charsLt_irrefl as]

theorem charsLt_asymm : ∀ x y : List Char, charsLt x y = true → charsLt y x = false
  | [], [] => by simp [charsLt]
  | [], _ :: _ => by simp [charsLt]
  | _ :: _, [] => by simp [charsLt]
  | a :: as, b :: bs => by
    by_cases hab : a < b
    · simp [charsLt, hab, lt_asymm hab]
    · by_cases hba : b < a
      · simp [charsLt, hab, hba]
      · simp only [charsLt, if_neg hab, if_neg hba]
        exact charsLt_asymm as bs

theorem charsLt_conn : ∀ x y : List Char,
    charsLt x y = false → charsLt y x = false → x = y
  | [], [] => by simp
  | [], _ :: _ => by simp [charsLt]
  | _ :: _, [] => by simp [charsLt]
  | a :: as, b :: bs => by
    by_cases hab : a < b
    · simp [charsLt, hab]
    · by_cases hba : b < a
      · simp [charsLt, hab, hba]
      · simp only [charsLt, if_neg hab, if_neg hba]
        intro h1 h2
        have hc : a = b := le_antisymm (le_of_not_lt hba) (le_of_not_lt hab)
        have ht : as = bs := charsLt_conn as bs h1 h2
        rw [hc, ht]

theorem charsLt_false_trans : ∀ x y z : List Char,
    charsLt y x = false → charsLt z y = false → charsLt z x = false
  | [], _, z => by
    intro _ _
    cases z with
    | nil => rfl
    | cons c cs => rfl
  | _ :: _, [], _ => by intro h1 _; simp [charsLt] at h1
  | a :: as, b :: bs, [] => by intro _ h2; simp [charsLt] at h2
  | a :: as, b :: bs, c :: cs => by
    intro h1 h2
    have hba : ¬ b < a := by
      intro hlt; simp [charsLt, hlt] at h1
    have hcb : ¬ c < b := by
      intro hlt; simp [charsLt, hlt] at h2
    have hca : ¬ c < a := fun hlt =>
      absurd (lt_of_lt_of_le hlt (le_of_not_lt hba)) hcb
    by_cases hac : a < c
    · simp [charsLt, hca, hac]
    · have hac' : a = c :=
        le_antisymm (le_of_not_lt hca) (le_of_not_lt hac)
      have hab : a = b :=
        le_antisymm (le_of_not_lt hba)
          (hac' ▸ le_of_not_lt hcb)
      have h1' : charsLt bs as = false := by
        simp [charsLt, hab, lt_irrefl] at h1; exact h1
      have h2' : charsLt cs bs = false := by
        have hbc : b = c := hab ▸ hac'
        simp [charsLt, hbc, lt_irrefl] at h2; exact h2
      simp [charsLt, hca, hac, charsLt_false_trans as bs cs h1' h2']

theorem strLe_total (a b : String) : strLe a b = true ∨ strLe b a = true := by
  unfold strLe strLt
  cases h : charsLt b.data a.data with
  | false => left; simp
  | true => right; simp [charsLt_asymm _ _ h]

theorem strLe_trans' {a b c : String} (h1 : strLe a b = true) (h2 : strLe b c = true) :
    strLe a c = true := by
  unfold strLe strLt at h1 h2 ⊢
  simp only [Bool.not_eq_true'] at h1 h2 ⊢
  exact charsLt_false_trans a.data b.data c.data h1 h2

theorem strLe_antisymm {a b : String} (h1 : strLe a b = true) (h2 : strLe b a = true) :
    a = b := by
  unfold strLe strLt at h1 h2
  simp only [Bool.not_eq_true'] at h1 h2
  exact String.ext (charsLt_conn a.data b.data h2 h1)

theorem strLe_of_not_lt {a b : String} (h : strLt a b = false) : strLe b a = true := by
  simp [strLe, h]

theorem sorted_sortByApexName (l : List ApexInfo) :
    List.Sorted apexNameLe (sortByApexName l) := by
  haveI : IsTotal ApexInfo apexNameLe :=
    ⟨fun a b => strLe_total a.ApexVariationName b.ApexVariationName⟩
  haveI : IsTrans ApexInfo apexNameLe :=
    ⟨fun _ _ _ h1 h2 => strLe_trans' h1 h2⟩
  exact List.sorted_insertionSort apexNameLe l

theorem perm_sortByApexName (l : List ApexInfo) : (sortByApexName l).Perm l :=
  List.perm_insertionSort apexNameLe l

theorem sorted_sortStrings (l : List String) :
    List.Sorted strLeRel (sortStrings l) := by
  haveI : IsTotal String strLeRel := ⟨fun a b => strLe_total a b⟩
  haveI : IsTrans String strLeRel := ⟨fun _ _ _ h1 h2 => strLe_trans' h1 h2⟩
  exact List.sorted_insertionSort strLeRel l

theorem perm_sortStrings (l : List String) : (sortStrings l).Perm l :=
  List.perm_insertionSort strLeRel l

/- ------------------------------------------------------------------
C8: the availability predicate.
------------------------------------------------------------------ -/

/-- C8: `CheckAvailableForApex(target, availability)` returns true
exactly when availability is empty and target is the platform
sentinel; or target appears verbatim; or target is not the platform
sentinel and the any-apex wildcard appears; or target has the GKI name
lead-in and the GKI wildcard appears — together with the four
concrete examples from the spec. -/
theorem checkAvailableForApex_spec :
    (∀ (what : String) (apex_available : List String),
        CheckAvailableForApex what apex_available = true ↔
          (apex_available = [] ∧ what = AvailableToPlatform) ∨
          what ∈ apex_available ∨
          (what ≠ AvailableToPlatform ∧ AvailableToAnyApex ∈ apex_available) ∨
          (strHasPre what gkiNameHead = true ∧ AvailableToGkiApex ∈ apex_available)) ∧
    CheckAvailableForApex ("bundle.x") [] = false ∧
    CheckAvailableForApex AvailableToPlatform [] = true ∧
    CheckAvailableForApex ("bundle.y") [AvailableToAnyApex] = true ∧
    CheckAvailableForApex ("com.android.gki.foo") [AvailableToGkiApex] = true := by
  refine ⟨?_, by decide, by decide, by decide, by decide⟩
  intro what avail
  cases avail with
  | nil => simp [CheckAvailableForApex, InList]
  | cons a t =>
      simp [CheckAvailableForApex, InList, List.contains, List.elem_iff,
        beq_iff_eq, bne_iff_ne, Bool.or_eq_true, Bool.and_eq_true]
      tauto

/- ------------------------------------------------------------------
C2: the registry update is not monotonic (code bug).
------------------------------------------------------------------ -/

/-- C2 (code bug): recording module mod directly in bundle b1 via
requirement v and then indirectly via requirement w leaves
registry[mod][b1] = false: the loop body of `UpdateApexDependency`
reads the own-variation entry instead of the member-bundle entry, so a
true entry is downgraded to false, and the final state depends on the
call order (the reversed order ends at true). -/
theorem updateApexDependency_downgrades_direct :
    (UpdateApexDependency emptyRegistry apexV modNameEx true) modNameEx bundleB1 = true ∧
    (UpdateApexDependency (UpdateApexDependency emptyRegistry apexV modNameEx true)
        apexW modNameEx false) modNameEx bundleB1 = false ∧
    (UpdateApexDependency (UpdateApexDependency emptyRegistry apexW modNameEx false)
        apexV modNameEx true) modNameEx bundleB1 = true := by
  refine ⟨by decide, by decide, by decide⟩

/- ------------------------------------------------------------------
C10: requirement registration is idempotent per variation name.
------------------------------------------------------------------ -/

theorem buildForApex_mem_eq {l : List ApexInfo} {apex : ApexInfo}
    (h : l.any (fun v => v.ApexVariationName == apex.ApexVariationName) = true) :
    BuildForApex l apex = l := by
  simp [BuildForApex, h]

theorem buildForApex_nodup {l : List ApexInfo}
    (h : (l.map (·.ApexVariationName)).Nodup) (apex : ApexInfo) :
    ((BuildForApex l apex).map (·.ApexVariationName)).Nodup := by
  unfold BuildForApex
  split
  · exact h
  · rename_i hany
    have hnot : apex.ApexVariationName ∉ l.map (·.ApexVariationName) := by
      intro hmem
      rcases List.mem_map.mp hmem with ⟨v, hv, hveq⟩
      exact hany (List.any_eq_true.mpr ⟨v, hv, by simp [hveq]⟩)
    simp [List.map_append, List.nodup_append, h, hnot]

theorem buildForApex_foldl_nodup (calls : List ApexInfo) :
    ((calls.foldl BuildForApex []).map (·.ApexVariationName)).Nodup := by
  suffices h : ∀ init : List ApexInfo, (init.map (·.ApexVariationName)).Nodup →
      ((calls.foldl BuildForApex init).map (·.ApexVariationName)).Nodup by
    exact h [] (by simp)
  induction calls with
  | nil => intro init hi; simpa using hi
  | cons a t ih => intro init hi; exact ih _ (buildForApex_nodup hi a)

/-- C10: `BuildForApex` is idempotent per (module, variationName): when
some stored requirement already carries the incoming variation name the
accumulated list is returned unchanged (whatever the other fields of
the incoming requirement are), and any sequence of registrations
starting from the empty list yields pairwise-distinct variation
names. -/
theorem buildForApex_idempotent_per_name :
    (∀ (l : List ApexInfo) (apex : ApexInfo),
        l.any (fun v => v.ApexVariationName == apex.ApexVariationName) = true →
        BuildForApex l apex = l) ∧
    (∀ calls : List ApexInfo,
        ((calls.foldl BuildForApex []).map (·.ApexVariationName)).Nodup) :=
  ⟨fun _ _ h => buildForApex_mem_eq h, buildForApex_foldl_nodup⟩

/-- C10 witness: a second registration under the name "x" with
different minSdkVersion, updatable flag, requiredSdks and
memberBundles is discarded entirely, and a concrete registration
sequence yields distinct names. -/
theorem buildForApex_idempotent_per_name_witness :
    BuildForApex [reqX1] reqX2 = [reqX1] ∧
    ((([reqX1, reqX2, reqA].foldl BuildForApex []).map (·.ApexVariationName))).Nodup :=
  ⟨buildForApex_idempotent_per_name.1 [reqX1] reqX2 (by decide),
   buildForApex_idempotent_per_name.2 [reqX1, reqX2, reqA]⟩

/- ------------------------------------------------------------------
C4: the SDK level resolver.
------------------------------------------------------------------ -/

theorem parsesAbove_elim {maxSdkVersion : ApiLevel} {w : String}
    (h : parsesAbove maxSdkVersion w = true) :
    ∃ aw, ApiLevelFromUser w = Except.ok aw ∧
      aw.LessThanOrEqualTo maxSdkVersion = false := by
  unfold parsesAbove at h
  split at h
  · rename_i aw hw
    exact ⟨aw, hw, by simpa using h⟩
  · exact absurd h (by simp)

theorem chooseLoop_skip {maxSdkVersion : ApiLevel} {vl : List String}
    {r : List String} (rest : List String)
    (h : ∀ w ∈ r, parsesAbove maxSdkVersion w = true) :
    chooseSdkVersionLoop maxSdkVersion vl (r ++ rest) =
      chooseSdkVersionLoop maxSdkVersion vl rest := by
  induction r with
  | nil => rfl
  | cons w r' ih =>
      obtain ⟨aw, hw, hle⟩ := parsesAbove_elim (h w (List.mem_cons_self _ _))
      rw [List.cons_append]
      simp only [chooseSdkVersionLoop, hw, hle]
      simp only [Bool.false_eq_true, if_false]
      exact ih (fun w' hw' => h w' (List.mem_cons_of_mem _ hw'))

theorem chooseLoop_ok_inv {maxSdkVersion : ApiLevel} {vl : List String} :
    ∀ {r : List String} {v : String},
      chooseSdkVersionLoop maxSdkVersion vl r = Except.ok v →
      v ∈ r ∧ ∃ a, ApiLevelFromUser v = Except.ok a ∧
        a.LessThanOrEqualTo maxSdkVersion = true := by
  intro r
  induction r with
  | nil => intro v h; exact absurd h (by simp [chooseSdkVersionLoop])
  | cons w r' ih =>
      intro v h
      simp only [chooseSdkVersionLoop] at h
      cases hw : ApiLevelFromUser w with
      | error e => rw [hw] at h; simp at h
      | ok a =>
          rw [hw] at h
          dsimp only at h
          cases hle : a.LessThanOrEqualTo maxSdkVersion with
          | true =>
              simp only [hle, if_true] at h
              have hv : w = v := by
                cases h; rfl
              subst hv
              exact ⟨List.mem_cons_self _ _, a, hw, hle⟩
          | false =>
              simp only [hle, Bool.false_eq_true, if_false] at h
              obtain ⟨hmem, rest⟩ := ih h
              exact ⟨List.mem_cons_of_mem _ hmem, rest⟩

/-- C4 counterexample: on candidates ["bogus", "11"] with ceiling 10 the
backward scan reaches the unparseable candidate and fails with that
candidate's parse error — not with the "no qualifying version" error
carrying the full candidate list and ceiling, as the claim states. -/
theorem chooseSdkVersion_parse_error_propagates :
    ChooseSdkVersion [("bogus"), ("11")] (uncheckedFinalApiLevel 10) =
      Except.error (SdkError.parseError ("bogus")) ∧
    SdkError.parseError ("bogus") ≠
      SdkError.notFound (uncheckedFinalApiLevel 10) [("bogus"), ("11")] := by
  refine ⟨by rfl, by decide⟩

/-- C4 (amended): `ChooseSdkVersion` scans the candidates from the last
toward the first; a returned candidate is a member of the list that
parses to a level ≤ the ceiling; the first candidate from the end whose
level is ≤ the ceiling is returned; when every candidate parses above
the ceiling the function fails with the "no qualifying version" error
carrying the ceiling and the full candidate list; and when the scan
reaches an unparseable candidate it fails with that candidate's parse
error instead. -/
theorem chooseSdkVersion_scan :
    (∀ (l : List String) (maxv : ApiLevel) (v : String),
        ChooseSdkVersion l maxv = Except.ok v →
        v ∈ l ∧ ∃ a, ApiLevelFromUser v = Except.ok a ∧
          a.LessThanOrEqualTo maxv = true) ∧
    (∀ (l₁ l₂ : List String) (v : String) (maxv : ApiLevel) (a : ApiLevel),
        l₂.all (parsesAbove maxv) = true →
        ApiLevelFromUser v = Except.ok a →
        a.LessThanOrEqualTo maxv = true →
        ChooseSdkVersion (l₁ ++ v :: l₂) maxv = Except.ok v) ∧
    (∀ (l : List String) (maxv : ApiLevel),
        l.all (parsesAbove maxv) = true →
        ChooseSdkVersion l maxv = Except.error (SdkError.notFound maxv l)) ∧
    (∀ (l₁ l₂ : List String) (v : String) (maxv : ApiLevel) (e : SdkError),
        l₂.all (parsesAbove maxv) = true →
        ApiLevelFromUser v = Except.error e →
        ChooseSdkVersion (l₁ ++ v :: l₂) maxv = Except.error e) := by
  refine ⟨?_, ?_, ?_, ?_⟩
  · intro l maxv v h
    obtain ⟨hmem, rest⟩ := chooseLoop_ok_inv h
    exact ⟨List.mem_reverse.mp hmem, rest⟩
  · intro l₁ l₂ v maxv a hall hv hle
    have hrev : (l₁ ++ v :: l₂).reverse = l₂.reverse ++ (v :: l₁.reverse) := by
      simp
    unfold ChooseSdkVersion
    rw [hrev, chooseLoop_skip _ (fun w hw =>
      List.all_eq_true.mp hall w (List.mem_reverse.mp hw))]
    simp [chooseSdkVersionLoop, hv, hle]
  · intro l maxv hall
    have h0 : chooseSdkVersionLoop maxv l (l.reverse ++ []) =
        chooseSdkVersionLoop maxv l [] :=
      chooseLoop_skip [] (fun w hw =>
        List.all_eq_true.mp hall w (List.mem_reverse.mp hw))
    unfold ChooseSdkVersion
    rw [← List.append_nil l.reverse, h0]
    rfl
  · intro l₁ l₂ v maxv e hall hv
    have hrev : (l₁ ++ v :: l₂).reverse = l₂.reverse ++ (v :: l₁.reverse) := by
      simp
    unfold ChooseSdkVersion
    rw [hrev, chooseLoop_skip _ (fun w hw =>
      List.all_eq_true.mp hall w (List.mem_reverse.mp hw))]
    simp [chooseSdkVersionLoop, hv]

/-- C4 witness: the two concrete examples of the claim, obtained from
the amended theorem — on ["1","5","9","11"] with ceiling 10 the scan
returns "9"; on ["1","5"] with ceiling 0 it fails with the
"no qualifying version" error. -/
theorem chooseSdkVersion_scan_witness :
    ChooseSdkVersion [("1"), ("5"), ("9"), ("11")] (uncheckedFinalApiLevel 10) =
      Except.ok ("9") ∧
    ChooseSdkVersion [("1"), ("5")] (uncheckedFinalApiLevel 0) =
      Except.error (SdkError.notFound (uncheckedFinalApiLevel 0) [("1"), ("5")]) :=
  ⟨chooseSdkVersion_scan.2.1 [("1"), ("5")] [("11")] ("9")
      (uncheckedFinalApiLevel 10) (uncheckedFinalApiLevel 9)
      (by decide) (by rfl) (by decide),
   chooseSdkVersion_scan.2.2.1 [("1"), ("5")] (uncheckedFinalApiLevel 0) (by decide)⟩

/- ------------------------------------------------------------------
Characterization of the merge fold: folding `mergeOne` over a list
starting from the empty state produces exactly `mergedOf`/`aliasesOf`.
------------------------------------------------------------------ -/

theorem dedupKeys_concat (p : List ApexInfo) (a : ApexInfo) :
    dedupKeys (p ++ [a]) =
      if (dedupKeys p).contains (keyOf a) then dedupKeys p
      else dedupKeys p ++ [keyOf a] := by
  simp [dedupKeys, List.foldl_concat]

theorem mem_foldl_dedup (k : String) :
    ∀ (p : List ApexInfo) (ks : List String),
      k ∈ p.foldl (fun ks a => if ks.contains (keyOf a) then ks else ks ++ [keyOf a]) ks ↔
        k ∈ ks ∨ ∃ a ∈ p, keyOf a = k := by
  intro p
  induction p with
  | nil => intro ks; simp
  | cons a p' ih =>
      intro ks
      have hstep : ∀ x : String,
          x ∈ (if ks.contains (keyOf a) then ks else ks ++ [keyOf a]) ↔
            x ∈ ks ∨ keyOf a = x := by
        intro x
        by_cases hc : ks.contains (keyOf a) = true
        · rw [if_pos hc]
          constructor
          · exact Or.inl
          · rintro (h | h)
            · exact h
            · exact h ▸ List.elem_iff.mp hc
        · rw [if_neg hc]
          simp [List.mem_append, eq_comm]
      rw [List.foldl_cons, ih, hstep]
      simp only [List.mem_cons]
      constructor
      · rintro ((h | h) | ⟨b, hb, hkb⟩)
        · exact Or.inl h
        · exact Or.inr ⟨a, Or.inl rfl, h⟩
        · exact Or.inr ⟨b, Or.inr hb, hkb⟩
      · rintro (h | ⟨b, (hb | hb), hkb⟩)
        · exact Or.inl (Or.inl h)
        · exact Or.inl (Or.inr (hb ▸ hkb))
        · exact Or.inr ⟨b, hb, hkb⟩

theorem nodup_foldl_dedup :
    ∀ (p : List ApexInfo) (ks : List String), ks.Nodup →
      (p.foldl (fun ks a => if ks.contains (keyOf a) then ks else ks ++ [keyOf a]) ks).Nodup := by
  intro p
  induction p with
  | nil => intro ks h; simpa using h
  | cons a p' ih =>
      intro ks h
      rw [List.foldl_cons]
      apply ih
      by_cases hc : ks.contains (keyOf a) = true
      · rw [if_pos hc]
        exact h
      · have hnot : keyOf a ∉ ks := fun hm => hc (List.elem_iff.mpr hm)
        rw [if_neg hc]
        simp [List.nodup_append, h, hnot]

theorem mem_dedupKeys {k : String} {p : List ApexInfo} :
    k ∈ dedupKeys p ↔ ∃ a ∈ p, keyOf a = k := by
  unfold dedupKeys
  rw [mem_foldl_dedup]
  simp

theorem nodup_dedupKeys (p : List ApexInfo) : (dedupKeys p).Nodup :=
  nodup_foldl_dedup p [] (by simp)

theorem filter_key_ne_nil {p : List ApexInfo} {k : String}
    (h : ∃ a ∈ p, keyOf a = k) :
    p.filter (fun a => keyOf a == k) ≠ [] := by
  obtain ⟨a, ha, hk⟩ := h
  intro hnil
  have hmem : a ∈ p.filter (fun a => keyOf a == k) :=
    List.mem_filter.mpr ⟨ha, by simp [hk]⟩
  rw [hnil] at hmem
  cases hmem

theorem groupFor_name {p : List ApexInfo} {k : String}
    (h : ∃ a ∈ p, keyOf a = k) :
    (groupFor p k).ApexVariationName = k := by
  simp only [groupFor]
  cases hf : p.filter (fun a => keyOf a == k) with
  | nil => exact absurd hf (filter_key_ne_nil h)
  | cons rep rest =>
      have hrep : rep ∈ p.filter (fun a => keyOf a == k) := by
        rw [hf]; exact List.mem_cons_self _ _
      have hkey : (keyOf rep == k) = true := (List.mem_filter.mp hrep).2
      simp [groupEntry, beq_iff_eq.mp hkey]

theorem groupFor_concat_ne {p : List ApexInfo} {a : ApexInfo} {k : String}
    (h : keyOf a ≠ k) : groupFor (p ++ [a]) k = groupFor p k := by
  have hfil : (p ++ [a]).filter (fun b => keyOf b == k) =
      p.filter (fun b => keyOf b == k) := by
    rw [List.filter_append]
    simp [List.filter, beq_eq_false_iff_ne.mpr h]
  simp only [groupFor, hfil]

theorem filter_key_concat_self (p : List ApexInfo) (a : ApexInfo) :
    (p ++ [a]).filter (fun b => keyOf b == keyOf a) =
      p.filter (fun b => keyOf b == keyOf a) ++ [a] := by
  rw [List.filter_append]
  simp [List.filter]

theorem groupFor_concat_self {p : List ApexInfo} {a : ApexInfo}
    (h : ∃ b ∈ p, keyOf b = keyOf a) :
    groupFor (p ++ [a]) (keyOf a) =
      { groupFor p (keyOf a) with
          InApexes := (groupFor p (keyOf a)).InApexes ++ [a.ApexVariationName],
          Updatable := (groupFor p (keyOf a)).Updatable || a.Updatable } := by
  cases hf : p.filter (fun b => keyOf b == keyOf a) with
  | nil => exact absurd hf (filter_key_ne_nil h)
  | cons rep rest =>
      have hfa : (p ++ [a]).filter (fun b => keyOf b == keyOf a) = rep :: (rest ++ [a]) := by
        rw [filter_key_concat_self, hf]; rfl
      simp only [groupFor, hf, hfa]
      simp [groupEntry, List.map_append, List.foldl_concat, List.append_assoc]

theorem groupFor_concat_new {p : List ApexInfo} {a : ApexInfo}
    (h : ¬∃ b ∈ p, keyOf b = keyOf a) :
    groupFor (p ++ [a]) (keyOf a) = { a with ApexVariationName := keyOf a } := by
  have hp : p.filter (fun b => keyOf b == keyOf a) = [] := by
    rw [List.filter_eq_nil_iff]
    intro b hb hbeq
    exact h ⟨b, hb, beq_iff_eq.mp hbeq⟩
  have hfa : (p ++ [a]).filter (fun b => keyOf b == keyOf a) = [a] := by
    rw [filter_key_concat_self, hp]; rfl
  simp only [groupFor, hfa]
  simp [groupEntry]

theorem findIndex_map_none {ks : List String} {g : String → ApexInfo} {k : String}
    (hgname : ∀ k' ∈ ks, (g k').ApexVariationName = k') (hk : k ∉ ks) :
    findIndex (fun e => e.ApexVariationName == k) (ks.map g) = none := by
  induction ks with
  | nil => rfl
  | cons c ks' ih =>
      have hc : ((g c).ApexVariationName == k) = false := by
        rw [hgname c (List.mem_cons_self _ _)]
        exact beq_eq_false_iff_ne.mpr (fun hek => hk (hek ▸ List.mem_cons_self _ _))
      simp only [List.map_cons, findIndex, hc]
      rw [ih (fun k' hk' => hgname k' (List.mem_cons_of_mem _ hk'))
        (fun hm => hk (List.mem_cons_of_mem _ hm))]
      rfl

theorem findIndex_map_modify (f : ApexInfo → ApexInfo) :
    ∀ (ks : List String) (g g' : String → ApexInfo) (k : String),
      ks.Nodup → k ∈ ks →
      (∀ k' ∈ ks, (g k').ApexVariationName = k') →
      (∀ k' ∈ ks, k' ≠ k → g' k' = g k') →
      g' k = f (g k) →
      ∃ i, findIndex (fun e => e.ApexVariationName == k) (ks.map g) = some i ∧
        modifyIdx f i (ks.map g) = ks.map g' := by
  intro ks
  induction ks with
  | nil => intro g g' k _ hk; exact absurd hk (List.not_mem_nil _)
  | cons c ks' ih =>
      intro g g' k hnd hk hgname hg' hgk
      by_cases hck : c = k
      · subst hck
        have hc : ((g c).ApexVariationName == c) = true := by
          rw [hgname c (List.mem_cons_self _ _)]
          exact beq_self_eq_true _
        refine ⟨0, ?_, ?_⟩
        · simp [findIndex, hc]
        · simp only [List.map_cons, modifyIdx]
          rw [← hgk]
          congr 1
          apply List.map_congr_left
          intro k' hk'
          have hne : k' ≠ c := by
            intro he
            subst he
            exact (List.nodup_cons.mp hnd).1 hk'
          exact (hg' k' (List.mem_cons_of_mem _ hk') hne).symm
      · have hc : ((g c).ApexVariationName == k) = false := by
          rw [hgname c (List.mem_cons_self _ _)]
          exact beq_eq_false_iff_ne.mpr hck
        have hkt : k ∈ ks' := by
          cases List.mem_cons.mp hk with
          | inl h => exact absurd h.symm hck
          | inr h => exact h
        obtain ⟨i, hfind, hmod⟩ := ih g g' k (List.nodup_cons.mp hnd).2 hkt
          (fun x hx => hgname x (List.mem_cons_of_mem _ hx))
          (fun x hx hxk => hg' x (List.mem_cons_of_mem _ hx) hxk) hgk
        refine ⟨i + 1, ?_, ?_⟩
        · simp [findIndex, hc, hfind]
        · simp only [List.map_cons, modifyIdx]
          rw [hmod]
          congr 1
          exact (hg' c (List.mem_cons_self _ _) hck).symm

theorem names_mergedOf (p : List ApexInfo) :
    (mergedOf p).map (·.ApexVariationName) = dedupKeys p := by
  unfold mergedOf
  rw [List.map_map]
  calc (dedupKeys p).map ((fun e => e.ApexVariationName) ∘ groupFor p)
      = (dedupKeys p).map id :=
        List.map_congr_left (fun k hk => groupFor_name (mem_dedupKeys.mp hk))
    _ = dedupKeys p := List.map_id _

theorem mergeOne_spec (p : List ApexInfo) (a : ApexInfo) :
    mergeOne (mergedOf p, aliasesOf p) a = (mergedOf (p ++ [a]), aliasesOf (p ++ [a])) := by
  have haliases : aliasesOf (p ++ [a]) =
      aliasesOf p ++ [(a.ApexVariationName, a.mergedName)] := by
    simp [aliasesOf, keyOf]
  by_cases hmem : keyOf a ∈ dedupKeys p
  · obtain ⟨i, hfind, hmod⟩ :=
      findIndex_map_modify
        (fun e =>
          { e with InApexes := e.InApexes ++ [a.ApexVariationName],
                   Updatable := e.Updatable || a.Updatable })
        (dedupKeys p) (groupFor p) (groupFor (p ++ [a])) (keyOf a)
        (nodup_dedupKeys p) hmem
        (fun k' hk' => groupFor_name (mem_dedupKeys.mp hk'))
        (fun k' _ hne => groupFor_concat_ne (fun he => hne he.symm))
        (groupFor_concat_self (mem_dedupKeys.mp hmem))
    have hdk : dedupKeys (p ++ [a]) = dedupKeys p := by
      rw [dedupKeys_concat, if_pos (List.elem_iff.mpr hmem)]
    have hfind' : findIndex (fun e => e.ApexVariationName == a.mergedName)
        (mergedOf p) = some i := hfind
    unfold mergeOne
    dsimp only
    rw [hfind']
    dsimp only
    have hmerged : modifyIdx
        (fun e => { e with InApexes := e.InApexes ++ [a.ApexVariationName],
                           Updatable := e.Updatable || a.Updatable }) i (mergedOf p) =
        mergedOf (p ++ [a]) := by
      unfold mergedOf
      rw [hdk]
      exact hmod
    rw [hmerged, haliases]
  · have hfindn : findIndex (fun e => e.ApexVariationName == a.mergedName)
        (mergedOf p) = none :=
      findIndex_map_none (fun k' hk' => groupFor_name (mem_dedupKeys.mp hk')) hmem
    have hcont : (dedupKeys p).contains (keyOf a) = false := by
      cases hc : (dedupKeys p).contains (keyOf a) with
      | false => rfl
      | true => exact absurd (List.elem_iff.mp hc) hmem
    have hdk : dedupKeys (p ++ [a]) = dedupKeys p ++ [keyOf a] := by
      rw [dedupKeys_concat, if_neg (by rw [hcont]; exact Bool.false_ne_true)]
    have h1 : (dedupKeys p).map (groupFor (p ++ [a])) = (dedupKeys p).map (groupFor p) :=
      List.map_congr_left (fun k' hk' => groupFor_concat_ne (fun he => hmem (he ▸ hk')))
    have h2 : groupFor (p ++ [a]) (keyOf a) = { a with ApexVariationName := keyOf a } :=
      groupFor_concat_new (fun hex => hmem (mem_dedupKeys.mpr hex))
    unfold mergeOne
    dsimp only
    rw [hfindn]
    dsimp only
    have hmerged : mergedOf (p ++ [a]) =
        mergedOf p ++ [{ a with ApexVariationName := a.mergedName, InApexes := CopyOf a.InApexes }] := by
      unfold mergedOf
      rw [hdk, List.map_append, h1]
      simp only [keyOf] at h2
      simp [keyOf, h2, CopyOf]
    rw [hmerged, haliases]

theorem mergeFold_spec (p : List ApexInfo) :
    p.foldl mergeOne ([], []) = (mergedOf p, aliasesOf p) := by
  induction p using List.reverseRecOn with
  | nil => rfl
  | append_singleton q a ih =>
      rw [List.foldl_concat, ih, mergeOne_spec]

theorem mergeApexVariations_eq (l : List ApexInfo) :
    mergeApexVariations l =
      (mergedOf (sortByApexName l), aliasesOf (sortByApexName l)) := by
  unfold mergeApexVariations
  rw [mergeFold_spec]

/- ------------------------------------------------------------------
C6: output lengths of the merge.
------------------------------------------------------------------ -/

theorem dedupKeys_length_le (p : List ApexInfo) : (dedupKeys p).length ≤ p.length := by
  suffices h : ∀ (q : List ApexInfo) (ks : List String),
      (q.foldl (fun ks a => if ks.contains (keyOf a) then ks else ks ++ [keyOf a]) ks).length ≤
        ks.length + q.length by
    have h0 := h p []
    rw [List.length_nil, Nat.zero_add] at h0
    exact h0
  intro q
  induction q with
  | nil => intro ks; simp
  | cons a q' ih =>
      intro ks
      rw [List.foldl_cons]
      refine le_trans (ih _) ?_
      by_cases hc : ks.contains (keyOf a) = true
      · rw [if_pos hc]
        simp only [List.length_cons]
        omega
      · rw [if_neg hc]
        simp only [List.length_append, List.length_cons, List.length_nil]
        omega

/-- C6: for every input sequence, the merged output is no longer than
the input and the alias list is exactly as long as the input — one
`(originalVariationName, mergeKey)` pair is appended per input
requirement, representatives included. -/
theorem mergeApexVariations_lengths (l : List ApexInfo) :
    (mergeApexVariations l).1.length ≤ l.length ∧
    (mergeApexVariations l).2.length = l.length := by
  rw [mergeApexVariations_eq]
  have hlen : (sortByApexName l).length = l.length := (perm_sortByApexName l).length_eq
  constructor
  · have h1 : (mergedOf (sortByApexName l)).length =
        (dedupKeys (sortByApexName l)).length := by
      simp [mergedOf]
    rw [h1]
    exact le_trans (dedupKeys_length_le _) (le_of_eq hlen)
  · simp [aliasesOf, hlen]

/- ------------------------------------------------------------------
C1: memberBundles of merged entries.
------------------------------------------------------------------ -/

/-- C1 counterexample: requirements a (memberBundles ["a"]) and b
(memberBundles ["b","c"]) share a merge key; the merged entry's
memberBundles is ["a","b"] — the incoming requirement's variation
name, not its entire memberBundles list, is appended — so the input
bundle name "c" is lost, contradicting the claimed duplicate-free
union and exact partition. -/
theorem mergeApexVariations_drops_member_bundles :
    ((mergeApexVariations [reqA, reqBC]).1.map (·.InApexes)) = [[("a"), ("b")]] ∧
    ("c") ∈ reqBC.InApexes := by
  refine ⟨by decide, by decide⟩

theorem perm_flatten_filter :
    ∀ (s : List ApexInfo) {ks : List String}, ks.Nodup →
      (∀ a ∈ s, keyOf a ∈ ks) →
      ((ks.map (fun k => s.filter (fun a => keyOf a == k))).flatten).Perm s := by
  intro s
  induction s with
  | nil =>
      intro ks _ _
      have hall : ∀ lx ∈ ks.map (fun k => ([] : List ApexInfo).filter (fun a => keyOf a == k)),
          lx = [] := by
        intro lx hlx
        rcases List.mem_map.mp hlx with ⟨k, _, hk⟩
        simpa [List.filter] using hk.symm
      rw [List.flatten_eq_nil_iff.mpr hall]
  | cons a s' ih =>
      intro ks hnd hcov
      have hka : keyOf a ∈ ks := hcov a (List.mem_cons_self _ _)
      obtain ⟨ks₁, ks₂, hks⟩ := List.append_of_mem hka
      subst hks
      have hsplit := List.nodup_append.mp hnd
      have hna1 : keyOf a ∉ ks₁ := fun hm =>
        (hsplit.2.2 hm) (List.mem_cons_self _ _)
      have hna2 : keyOf a ∉ ks₂ := (List.nodup_cons.mp hsplit.2.1).1
      have hmap1 : ks₁.map (fun k => (a :: s').filter (fun b => keyOf b == k)) =
          ks₁.map (fun k => s'.filter (fun b => keyOf b == k)) :=
        List.map_congr_left (fun k hk => by
          have hne : (keyOf a == k) = false :=
            beq_eq_false_iff_ne.mpr (fun he => hna1 (he ▸ hk))
          simp [List.filter_cons, hne])
      have hmap2 : ks₂.map (fun k => (a :: s').filter (fun b => keyOf b == k)) =
          ks₂.map (fun k => s'.filter (fun b => keyOf b == k)) :=
        List.map_congr_left (fun k hk => by
          have hne : (keyOf a == k) = false :=
            beq_eq_false_iff_ne.mpr (fun he => hna2 (he ▸ hk))
          simp [List.filter_cons, hne])
      have hmid : (a :: s').filter (fun b => keyOf b == keyOf a) =
          a :: s'.filter (fun b => keyOf b == keyOf a) := by
        simp [List.filter_cons]
      rw [List.map_append, List.map_cons, List.flatten_append, List.flatten_cons,
        hmap1, hmap2, hmid, List.cons_append]
      have hcov' : ∀ b ∈ s', keyOf b ∈ ks₁ ++ keyOf a :: ks₂ := fun b hb =>
        hcov b (List.mem_cons_of_mem _ hb)
      have hperm := ih hnd hcov'
      rw [List.map_append, List.map_cons, List.flatten_append, List.flatten_cons] at hperm
      exact List.Perm.trans List.perm_middle (hperm.cons a)

theorem groupFor_inApexes_of_singleton {s : List ApexInfo} {k : String}
    (hsing : ∀ a ∈ s, a.InApexes = [a.ApexVariationName])
    (h : ∃ a ∈ s, keyOf a = k) :
    (groupFor s k).InApexes =
      (s.filter (fun a => keyOf a == k)).map (·.ApexVariationName) := by
  cases hf : s.filter (fun a => keyOf a == k) with
  | nil => exact absurd hf (filter_key_ne_nil h)
  | cons rep rest =>
      have hrep : rep ∈ s :=
        List.mem_of_mem_filter
          (show rep ∈ s.filter (fun a => keyOf a == k) by
            rw [hf]; exact List.mem_cons_self _ _)
      simp only [groupFor, hf]
      simp [groupEntry, hsing rep hrep]

/-- C1 (amended): the merged output equals the grouped specification
`mergedOf` of the sorted input — each entry is its group's
representative with the variation names (not the memberBundles lists)
of the later same-key requirements appended to its memberBundles — and
when every input requirement's memberBundles is exactly the singleton
of its variation name and the input variation names are distinct, the
output memberBundles lists partition the input variation names exactly
(no name lost, none duplicated). -/
theorem mergeApexVariations_memberBundles :
    (∀ l : List ApexInfo, (mergeApexVariations l).1 = mergedOf (sortByApexName l)) ∧
    (∀ l : List ApexInfo,
        (∀ a ∈ l, a.InApexes = [a.ApexVariationName]) →
        (l.map (·.ApexVariationName)).Nodup →
        (((mergeApexVariations l).1.map (·.InApexes)).flatten).Perm
            (l.map (·.ApexVariationName)) ∧
        (((mergeApexVariations l).1.map (·.InApexes)).flatten).Nodup) := by
  constructor
  · intro l
    rw [mergeApexVariations_eq]
  · intro l hsing hnd
    have hsing' : ∀ a ∈ sortByApexName l, a.InApexes = [a.ApexVariationName] :=
      fun a ha => hsing a ((perm_sortByApexName l).mem_iff.mp ha)
    have hinap : (mergeApexVariations l).1.map (·.InApexes) =
        (dedupKeys (sortByApexName l)).map
          (fun k => ((sortByApexName l).filter (fun a => keyOf a == k)).map
            (·.ApexVariationName)) := by
      rw [mergeApexVariations_eq]
      show (mergedOf (sortByApexName l)).map (·.InApexes) = _
      unfold mergedOf
      rw [List.map_map]
      exact List.map_congr_left (fun k hk =>
        groupFor_inApexes_of_singleton hsing' (mem_dedupKeys.mp hk))
    have hperm1 : (((mergeApexVariations l).1.map (·.InApexes)).flatten).Perm
        ((sortByApexName l).map (·.ApexVariationName)) := by
      rw [hinap]
      have hflat : ((dedupKeys (sortByApexName l)).map
          (fun k => ((sortByApexName l).filter (fun a => keyOf a == k)).map
            (·.ApexVariationName))).flatten =
          (((dedupKeys (sortByApexName l)).map
            (fun k => (sortByApexName l).filter (fun a => keyOf a == k))).flatten).map
              (·.ApexVariationName) := by
        rw [List.map_flatten, List.map_map]
        rfl
      rw [hflat]
      exact (perm_flatten_filter (sortByApexName l) (nodup_dedupKeys _)
        (fun a ha => mem_dedupKeys.mpr ⟨a, ha, rfl⟩)).map _
    have hperm : (((mergeApexVariations l).1.map (·.InApexes)).flatten).Perm
        (l.map (·.ApexVariationName)) :=
      hperm1.trans ((perm_sortByApexName l).map _)
    exact ⟨hperm, hperm.nodup_iff.mpr hnd⟩

/-- C1 witness: three singleton-memberBundles requirements a, b, c
(keys apex29, apex29, apex30); the merged output's memberBundles
partition the names a, b, c. -/
theorem mergeApexVariations_memberBundles_witness :
    ((((mergeApexVariations [reqA, reqB, reqC30]).1.map (·.InApexes)).flatten)).Perm
        ([reqA, reqB, reqC30].map (·.ApexVariationName)) :=
  (mergeApexVariations_memberBundles.2 [reqA, reqB, reqC30]
    (by decide) (by decide)).1

/- ------------------------------------------------------------------
C7: merging its own output.
------------------------------------------------------------------ -/

theorem keyOf_groupEntry (rep : ApexInfo) (rest : List ApexInfo) :
    keyOf (groupEntry rep rest) = keyOf rep := rfl

theorem keyOf_groupFor {p : List ApexInfo} {k : String}
    (h : ∃ a ∈ p, keyOf a = k) : keyOf (groupFor p k) = k := by
  simp only [groupFor]
  cases hf : p.filter (fun a => keyOf a == k) with
  | nil => exact absurd hf (filter_key_ne_nil h)
  | cons rep rest =>
      have hrep : rep ∈ p.filter (fun a => keyOf a == k) := by
        rw [hf]; exact List.mem_cons_self _ _
      have hkey : (keyOf rep == k) = true := (List.mem_filter.mp hrep).2
      rw [keyOf_groupEntry]
      exact beq_iff_eq.mp hkey

theorem mergedOf_key_eq_name {p : List ApexInfo} :
    ∀ e ∈ mergedOf p, keyOf e = e.ApexVariationName := by
  intro e he
  rcases List.mem_map.mp he with ⟨k, hk, rfl⟩
  rw [keyOf_groupFor (mem_dedupKeys.mp hk), groupFor_name (mem_dedupKeys.mp hk)]

theorem dedupKeys_of_nodup_keys {p : List ApexInfo}
    (h : (p.map keyOf).Nodup) : dedupKeys p = p.map keyOf := by
  induction p using List.reverseRecOn with
  | nil => rfl
  | append_singleton q a ih =>
      rw [List.map_append] at h
      have hq := (List.nodup_append.mp h).1
      have hna : keyOf a ∉ q.map keyOf := fun hm =>
        ((List.nodup_append.mp h).2.2 hm) (List.mem_cons_self _ _)
      have hcont : (dedupKeys q).contains (keyOf a) = false := by
        cases hc : (dedupKeys q).contains (keyOf a) with
        | false => rfl
        | true =>
            have := List.elem_iff.mp hc
            rw [ih hq] at this
            exact absurd this hna
      rw [dedupKeys_concat, if_neg (by rw [hcont]; exact Bool.false_ne_true), ih hq,
        List.map_append]
      rfl

theorem filter_name_eq_self {p : List ApexInfo}
    (hnd : (p.map (·.ApexVariationName)).Nodup) :
    ∀ e ∈ p, p.filter (fun b => b.ApexVariationName == e.ApexVariationName) = [e] := by
  induction p with
  | nil => intro e he; cases he
  | cons a t ih =>
      intro e he
      rw [List.map_cons, List.nodup_cons] at hnd
      cases List.mem_cons.mp he with
      | inl hea =>
          subst hea
          rw [List.filter_cons]
          simp only [beq_self_eq_true, if_pos]
          have ht : t.filter (fun b => b.ApexVariationName == e.ApexVariationName) = [] := by
            rw [List.filter_eq_nil_iff]
            intro b hb hbeq
            exact hnd.1 (List.mem_map.mpr ⟨b, hb, (beq_iff_eq.mp hbeq)⟩)
          rw [ht]
      | inr het =>
          rw [List.filter_cons]
          have hne : (a.ApexVariationName == e.ApexVariationName) = false :=
            beq_eq_false_iff_ne.mpr (fun heq =>
              hnd.1 (List.mem_map.mpr ⟨e, het, heq.symm⟩))
          rw [hne]
          simp only [Bool.false_eq_true, if_false]
          exact ih hnd.2 e het

theorem mergedOf_of_distinct {p : List ApexInfo}
    (hkey : ∀ e ∈ p, keyOf e = e.ApexVariationName)
    (hnd : (p.map (·.ApexVariationName)).Nodup) :
    mergedOf p = p := by
  have hmapk : p.map keyOf = p.map (·.ApexVariationName) := List.map_congr_left hkey
  have hknd : (p.map keyOf).Nodup := by rw [hmapk]; exact hnd
  unfold mergedOf
  rw [dedupKeys_of_nodup_keys hknd, hmapk, List.map_map]
  have hpt : ∀ e ∈ p, (groupFor p ∘ (·.ApexVariationName)) e = e := by
    intro e he
    have hfe : p.filter (fun b => keyOf b == e.ApexVariationName) = [e] := by
      have hcong : p.filter (fun b => keyOf b == e.ApexVariationName) =
          p.filter (fun b => b.ApexVariationName == e.ApexVariationName) :=
        List.filter_congr (fun b hb => by rw [hkey b hb])
      rw [hcong]
      exact filter_name_eq_self hnd e he
    simp only [Function.comp_apply, groupFor, hfe]
    simp [groupEntry, hkey e he]
  calc p.map (groupFor p ∘ (·.ApexVariationName)) = p.map id := List.map_congr_left hpt
    _ = p := List.map_id p

/-- C7 counterexample: on requirements a (minSdk 9) and b (minSdk 10)
the first merge produces entries named ["apex9", "apex10"]; merging
that output again sorts the entries to ["apex10", "apex9"], so the
second run does not return the same sequence (the difference is in the
sequence order, not in any memberBundles ordering). -/
theorem mergeApexVariations_not_seq_idem :
    ((mergeApexVariations [reqA9, reqB10]).1).map (·.ApexVariationName) =
      [("apex9"), ("apex10")] ∧
    ((mergeApexVariations ((mergeApexVariations [reqA9, reqB10]).1)).1).map
        (·.ApexVariationName) = [("apex10"), ("apex9")] ∧
    (mergeApexVariations ((mergeApexVariations [reqA9, reqB10]).1)).1 ≠
      (mergeApexVariations [reqA9, reqB10]).1 := by
  refine ⟨by decide, by decide, by decide⟩

/-- C7 (amended): re-merging a merged output returns the same entries
reordered into variation-name-sorted order — each entry unchanged, no
further folding — and every alias pair of the second run maps a name
to itself. -/
theorem mergeApexVariations_idem :
    ∀ l : List ApexInfo,
      (mergeApexVariations ((mergeApexVariations l).1)).1 =
        sortByApexName ((mergeApexVariations l).1) ∧
      ∀ pr ∈ (mergeApexVariations ((mergeApexVariations l).1)).2, pr.1 = pr.2 := by
  intro l
  have hm : (mergeApexVariations l).1 = mergedOf (sortByApexName l) := by
    rw [mergeApexVariations_eq]
  have hkey : ∀ e ∈ (mergeApexVariations l).1, keyOf e = e.ApexVariationName := by
    rw [hm]; exact mergedOf_key_eq_name
  have hnd : (((mergeApexVariations l).1).map (·.ApexVariationName)).Nodup := by
    rw [hm, names_mergedOf]
    exact nodup_dedupKeys _
  have hkey' : ∀ e ∈ sortByApexName ((mergeApexVariations l).1),
      keyOf e = e.ApexVariationName := fun e he =>
    hkey e ((perm_sortByApexName _).mem_iff.mp he)
  have hnd' : ((sortByApexName ((mergeApexVariations l).1)).map
      (·.ApexVariationName)).Nodup :=
    ((perm_sortByApexName _).map _).nodup_iff.mpr hnd
  constructor
  · rw [mergeApexVariations_eq]
    exact mergedOf_of_distinct hkey' hnd'
  · intro pr hpr
    rw [mergeApexVariations_eq] at hpr
    simp only [aliasesOf, List.mem_map] at hpr
    obtain ⟨e, he, hpre⟩ := hpr
    rw [← hpre]
    simp [keyOf] at hkey'
    simp [keyOf, hkey' e he]

/- ------------------------------------------------------------------
C3: variant labels created by the mutation driver.
------------------------------------------------------------------ -/

theorem sorted_names_sortByApexName (l : List ApexInfo) :
    List.Sorted strLeRel ((sortByApexName l).map (·.ApexVariationName)) :=
  List.Pairwise.map _ (fun _ _ h => h) (sorted_sortByApexName l)

/-- C3: for a module with a non-empty accumulated requirement set, the
variant-label sequence has exactly `1 + |mergedRequirements|` entries;
the first label is the empty platform label; and the remaining labels
are precisely the (merged or unmerged) requirements' variation names in
byte-wise lexicographic ascending order — hence deterministic for
identical inputs. -/
theorem createApexVariations_variants (u₁ u₂ : Bool) (l : List ApexInfo)
    (hne : l ≠ []) :
    (CreateApexVariationsLabels u₁ u₂ l).length =
      1 + (mergedRequirements u₁ u₂ l).length ∧
    (CreateApexVariationsLabels u₁ u₂ l).head? = some "" ∧
    ((CreateApexVariationsLabels u₁ u₂ l).drop 1).Perm
      ((mergedRequirements u₁ u₂ l).map (·.ApexVariationName)) ∧
    List.Sorted strLeRel ((CreateApexVariationsLabels u₁ u₂ l).drop 1) := by
  have hlen : l.length > 0 := by
    cases l with
    | nil => exact absurd rfl hne
    | cons a t => simp
  have hunfold : CreateApexVariationsLabels u₁ u₂ l =
      [""] ++ (sortByApexName (mergedRequirements u₁ u₂ l)).map (·.ApexVariationName) := by
    unfold CreateApexVariationsLabels mergedRequirements
    rw [if_pos hlen]
  rw [hunfold]
  refine ⟨?_, rfl, ?_, ?_⟩
  · simp only [List.length_append, List.length_cons, List.length_nil, List.length_map,
      (perm_sortByApexName _).length_eq]
  · show ((sortByApexName (mergedRequirements u₁ u₂ l)).map (·.ApexVariationName)).Perm _
    exact (perm_sortByApexName _).map _
  · show List.Sorted strLeRel
      ((sortByApexName (mergedRequirements u₁ u₂ l)).map (·.ApexVariationName))
    exact sorted_names_sortByApexName _

/-- C3 witness: a concrete two-requirement module — three labels, the
empty platform label first, the merged names following in sorted
order. -/
theorem createApexVariations_variants_witness :
    (CreateApexVariationsLabels false false [reqA, reqC30]).length =
      1 + (mergedRequirements false false [reqA, reqC30]).length ∧
    (CreateApexVariationsLabels false false [reqA, reqC30]).head? = some "" :=
  ⟨(createApexVariations_variants false false [reqA, reqC30] (by simp)).1,
   (createApexVariations_variants false false [reqA, reqC30] (by simp)).2.1⟩

/- ------------------------------------------------------------------
C9: uniqueness propagation.
------------------------------------------------------------------ -/

theorem strLt_self_false (x : String) : strLt x x = false := by
  simp [strLt, charsLt_irrefl]

theorem searchStrings_mem {l : List String} (x : String)
    (hs : List.Sorted strLeRel l) :
    (searchStrings l x < l.length ∧ l.getD (searchStrings l x) default = x) ↔
      x ∈ l := by
  induction l with
  | nil => simp [searchStrings]
  | cons a t ih =>
      rw [List.sorted_cons] at hs
      cases hlt : strLt a x with
      | true =>
          have hax : a ≠ x := fun he => by
            rw [he, strLt_self_false] at hlt
            exact Bool.false_ne_true hlt
          have hsl : searchStrings (a :: t) x = searchStrings t x + 1 := by
            simp [searchStrings, List.takeWhile_cons, hlt]
          rw [hsl]
          simp only [List.length_cons, List.getD_cons_succ, Nat.add_lt_add_iff_right]
          rw [ih hs.2]
          constructor
          · exact fun h => List.mem_cons_of_mem _ h
          · intro h
            cases List.mem_cons.mp h with
            | inl hxa => exact absurd hxa.symm hax
            | inr hxt => exact hxt
      | false =>
          have hsl : searchStrings (a :: t) x = 0 := by
            simp [searchStrings, List.takeWhile_cons, hlt]
          rw [hsl]
          simp only [List.length_cons, List.getD_cons_zero, Nat.succ_pos, true_and]
          constructor
          · intro h
            exact h ▸ List.mem_cons_self _ _
          · intro h
            cases List.mem_cons.mp h with
            | inl hxa => exact hxa.symm
            | inr hxt => exact strLe_antisymm (hs.1 x hxt) (strLe_of_not_lt hlt)

theorem collectApexes_eq (infos : List ApexInfo) :
    collectApexes infos = (infos.map (·.InApexes)).flatten := by
  suffices h : ∀ (q : List ApexInfo) (acc : List String),
      q.foldl (fun ret info => ret ++ info.InApexes) acc =
        acc ++ (q.map (·.InApexes)).flatten by
    simpa using h infos []
  intro q
  induction q with
  | nil => intro acc; simp
  | cons i t ih =>
      intro acc
      rw [List.foldl_cons, ih]
      simp

theorem anyInSameApex_iff (a b : List ApexInfo) :
    anyInSameApex a b = true ↔
      ∃ x, x ∈ collectApexes a ∧ x ∈ collectApexes b := by
  unfold anyInSameApex
  dsimp only
  rw [List.any_eq_true]
  constructor
  · rintro ⟨x, hx, hcond⟩
    rw [Bool.and_eq_true] at hcond
    have hp := (searchStrings_mem x (sorted_sortStrings (collectApexes b))).mp
      ⟨of_decide_eq_true hcond.1, beq_iff_eq.mp hcond.2⟩
    exact ⟨x, hx, (perm_sortStrings _).mem_iff.mp hp⟩
  · rintro ⟨x, hxa, hxb⟩
    refine ⟨x, hxa, ?_⟩
    have hx' : x ∈ sortStrings (collectApexes b) := (perm_sortStrings _).mem_iff.mpr hxb
    have hc := (searchStrings_mem x (sorted_sortStrings (collectApexes b))).mpr hx'
    rw [Bool.and_eq_true]
    exact ⟨decide_eq_true hc.1, beq_iff_eq.mpr hc.2⟩

theorem updateUnique_cons_none (m : ApexModuleState) (ds : List (Option ApexModuleState)) :
    UpdateUniqueApexVariationsForDeps m (none :: ds) =
      UpdateUniqueApexVariationsForDeps m ds := rfl

theorem updateUnique_cons_some (m s : ApexModuleState) (ds : List (Option ApexModuleState)) :
    UpdateUniqueApexVariationsForDeps m (some s :: ds) =
      UpdateUniqueApexVariationsForDeps
        (if anyInSameApex s.apexVariations m.apexVariations &&
            (s.uniqueApexVariations || s.uniqueApexVariationsForDeps) then
          { m with uniqueApexVariationsForDeps := true }
        else m) ds := rfl

theorem updateUnique_eq (m : ApexModuleState) (deps : List (Option ApexModuleState)) :
    UpdateUniqueApexVariationsForDeps m deps =
      { m with uniqueApexVariationsForDeps :=
          m.uniqueApexVariationsForDeps ||
            deps.any (fun d =>
              match d with
              | some s => anyInSameApex s.apexVariations m.apexVariations &&
                  (s.uniqueApexVariations || s.uniqueApexVariationsForDeps)
              | none => false) } := by
  induction deps generalizing m with
  | nil => simp [UpdateUniqueApexVariationsForDeps]
  | cons d ds ih =>
      cases d with
      | none =>
          rw [updateUnique_cons_none, ih]
          simp
      | some s =>
          rw [updateUnique_cons_some]
          by_cases hc : (anyInSameApex s.apexVariations m.apexVariations &&
              (s.uniqueApexVariations || s.uniqueApexVariationsForDeps)) = true
          · rw [if_pos hc, ih]
            simp [List.any_cons, hc]
          · rw [if_neg hc, ih]
            have hc' : (anyInSameApex s.apexVariations m.apexVariations &&
                (s.uniqueApexVariations || s.uniqueApexVariationsForDeps)) = false :=
              Bool.eq_false_iff.mpr hc
            simp [List.any_cons, hc']

/-- C9: after `UpdateUniqueApexVariationsForDeps`, the propagated flag
is true iff it was already true, or some direct dependency that
participates in the apex system shares at least one concrete bundle
name (a common element of the two modules' accumulated `InApexes`
lists) with the module and that dependency declares unique variants
itself or has its own propagated flag set; the flag is only ever
raised, never cleared. -/
theorem updateUniqueApexVariationsForDeps_spec :
    ∀ (m : ApexModuleState) (deps : List (Option ApexModuleState)),
      ((UpdateUniqueApexVariationsForDeps m deps).uniqueApexVariationsForDeps = true ↔
        m.uniqueApexVariationsForDeps = true ∨
        ∃ s : ApexModuleState, some s ∈ deps ∧
          (∃ x, x ∈ collectApexes s.apexVariations ∧ x ∈ collectApexes m.apexVariations) ∧
          (s.uniqueApexVariations = true ∨ s.uniqueApexVariationsForDeps = true)) ∧
      (m.uniqueApexVariationsForDeps = true →
        (UpdateUniqueApexVariationsForDeps m deps).uniqueApexVariationsForDeps = true) := by
  intro m deps
  have heq := updateUnique_eq m deps
  constructor
  · rw [heq]
    simp only [Bool.or_eq_true, List.any_eq_true]
    constructor
    · rintro (h | ⟨d, hd, hp⟩)
      · exact Or.inl h
      · cases d with
        | none => simp at hp
        | some s =>
            simp only [Bool.and_eq_true, Bool.or_eq_true] at hp
            exact Or.inr ⟨s, hd, (anyInSameApex_iff _ _).mp hp.1, hp.2⟩
    · rintro (h | ⟨s, hs, hshare, hu⟩)
      · exact Or.inl h
      · refine Or.inr ⟨some s, hs, ?_⟩
        simp only [Bool.and_eq_true, Bool.or_eq_true]
        exact ⟨(anyInSameApex_iff _ _).mpr hshare, hu⟩
  · intro h
    rw [heq]
    simp [h]

/-- C9 witness: a module whose flag is already set keeps it set after
the propagation pass. -/
theorem updateUniqueApexVariationsForDeps_spec_witness :
    (UpdateUniqueApexVariationsForDeps
        { apexVariations := [reqA], uniqueApexVariations := false,
          uniqueApexVariationsForDeps := true } []).uniqueApexVariationsForDeps = true :=
  (updateUniqueApexVariationsForDeps_spec
    { apexVariations := [reqA], uniqueApexVariations := false,
      uniqueApexVariationsForDeps := true } []).2 rfl

/- ------------------------------------------------------------------
C5: the min-SDK payload walk.
------------------------------------------------------------------ -/

theorem walkForest_singleton (minSdk : ApiLevel) (t : DepTree) :
    walkForest minSdk [t] = walkTree minSdk t := by
  simp [walkForest]

/-- C5 (amended): during the payload walk of a non-host, non-coverage
build with a finalized required level — an external edge is never
descended past and never produces a report; a non-external,
same-bundle edge whose target does not support the required level
produces exactly one reported violation (carrying the violated level,
the offending module and the dependency path) and stops descent past
that edge, both when the target's name is absent from the allow-list
and when its grandfathered level exceeds the required level
(`ver.GreaterThan minSdkVersion`); and when the target is allow-listed
at a grandfathered level that does not exceed the required level, no
error is reported and the traversal continues below the edge. -/
theorem checkMinSdkVersion_edge_policy (host coverage : Bool) (minSdk : ApiLevel)
    (e : PayloadEdge) (cs : List DepTree)
    (hh : host = false) (hcov : coverage = false) (hfin : minSdk.IsCurrent = false) :
    (e.externalDep = true →
      CheckMinSdkVersion host coverage minSdk [DepTree.node e cs] = []) ∧
    (e.externalDep = false →
      (e.fromImplementsDepIsInSameApex = false ∨ e.depIsInSameApex = true) →
      ∀ err, e.toSupportsError = some err →
        ((minSdkVersionAllowlist e.toName = none →
            CheckMinSdkVersion host coverage minSdk [DepTree.node e cs] =
              [{ toName := e.toName, minSdkVersion := minSdk,
                 reason := err, path := e.pathString }]) ∧
         (∀ ver, minSdkVersionAllowlist e.toName = some ver →
            ver.GreaterThan minSdk = true →
            CheckMinSdkVersion host coverage minSdk [DepTree.node e cs] =
              [{ toName := e.toName, minSdkVersion := minSdk,
                 reason := err, path := e.pathString }]) ∧
         (∀ ver, minSdkVersionAllowlist e.toName = some ver →
            ver.GreaterThan minSdk = false →
            CheckMinSdkVersion host coverage minSdk [DepTree.node e cs] =
              walkForest minSdk cs))) := by
  subst hh hcov
  have hck : CheckMinSdkVersion false false minSdk [DepTree.node e cs] =
      walkTree minSdk (DepTree.node e cs) := by
    unfold CheckMinSdkVersion
    rw [walkForest_singleton]
    simp [hfin]
  rw [hck]
  constructor
  · intro hext
    simp [walkTree, minSdkCallback, hext]
  · intro hext hsame err herr
    have hguard : (e.fromImplementsDepIsInSameApex && !e.depIsInSameApex) = false := by
      rcases hsame with h | h
      · simp [h]
      · simp [h]
    refine ⟨?_, ?_, ?_⟩
    · intro hal
      simp [walkTree, minSdkCallback, hext, hguard, herr, hal]
    · intro ver hver hgt
      simp [walkTree, minSdkCallback, hext, hguard, herr, hver, hgt]
    · intro ver hver hgt
      simp [walkTree, minSdkCallback, hext, hguard, herr, hver, hgt]

/-- C5 witness: with required level 30, the allow-listed target "adbd"
(grandfathered at 30) produces no report and traversal continues (here
over no children); the same edge marked external produces nothing
either. -/
theorem checkMinSdkVersion_edge_policy_witness :
    CheckMinSdkVersion false false (uncheckedFinalApiLevel 30)
      [DepTree.node edgeAdbd []] = [] ∧
    CheckMinSdkVersion false false (uncheckedFinalApiLevel 30)
      [DepTree.node edgeExt []] = [] := by
  constructor
  · have h := ((checkMinSdkVersion_edge_policy false false (uncheckedFinalApiLevel 30)
        edgeAdbd [] rfl rfl (by decide)).2 rfl (Or.inr rfl) ("unsupported") rfl).2.2
        (uncheckedFinalApiLevel 30) (by rfl) (by decide)
    rw [h]
    simp [walkForest]
  · exact (checkMinSdkVersion_edge_policy false false (uncheckedFinalApiLevel 30)
      edgeExt [] rfl rfl (by decide)).1 rfl

/-- C7 witness: on the concrete input [reqA9, reqB10] the second merge
returns the sorted first output, and the alias pair recorded for the
apex10 entry maps the name to itself. -/
theorem mergeApexVariations_idem_witness :
    (mergeApexVariations ((mergeApexVariations [reqA9, reqB10]).1)).1 =
      sortByApexName ((mergeApexVariations [reqA9, reqB10]).1) ∧
    ((("apex10"), ("apex10")) : String × String).1 =
      ((("apex10"), ("apex10")) : String × String).2 :=
  ⟨(mergeApexVariations_idem [reqA9, reqB10]).1,
   (mergeApexVariations_idem [reqA9, reqB10]).2 ((("apex10"), ("apex10"))) (by decide)⟩

/-- C5 counterexample: the exemption test runs in the opposite
direction from the claimed "grandfathered level ≥ requiredLevel".  For
target "captiveportal-lib", grandfathered at finalized level 28, with
required level 29 (so the grandfathered level is strictly below the
required level and the claim demands exactly one reported violation),
the walk reports nothing and continues; and for target "adbd",
grandfathered at 30 ≥ required 29 (where the claim says no error is
reported), the walk produces the single violation report. -/
theorem checkMinSdkVersion_allowlist_direction :
    minSdkVersionAllowlist ("captiveportal-lib") = some (uncheckedFinalApiLevel 28) ∧
    (uncheckedFinalApiLevel 29).GreaterThan (uncheckedFinalApiLevel 28) = true ∧
    CheckMinSdkVersion false false (uncheckedFinalApiLevel 29)
      [DepTree.node edgeCaptive []] = [] ∧
    minSdkVersionAllowlist ("adbd") = some (uncheckedFinalApiLevel 30) ∧
    (uncheckedFinalApiLevel 30).GreaterThan (uncheckedFinalApiLevel 29) = true ∧
    CheckMinSdkVersion false false (uncheckedFinalApiLevel 29)
      [DepTree.node edgeAdbd []] =
      [{ toName := "adbd", minSdkVersion := uncheckedFinalApiLevel 29,
         reason := ("unsupported"), path := ("root -> adbd") }] := by
  have hfin : (uncheckedFinalApiLevel 29).IsCurrent = false := by decide
  have hlkC : minSdkVersionAllowlist ("captiveportal-lib") =
      some (uncheckedFinalApiLevel 28) := by rfl
  have hlkA : minSdkVersionAllowlist ("adbd") = some (uncheckedFinalApiLevel 30) := by rfl
  have hgtC : (uncheckedFinalApiLevel 28).GreaterThan (uncheckedFinalApiLevel 29) = false := by
    decide
  have hgtA : (uncheckedFinalApiLevel 30).GreaterThan (uncheckedFinalApiLevel 29) = true := by
    decide
  refine ⟨hlkC, by decide, ?_, hlkA, hgtA, ?_⟩
  · unfold CheckMinSdkVersion
    simp only [hfin, Bool.false_eq_true, if_false]
    rw [walkForest_singleton]
    simp [walkTree, minSdkCallback, edgeCaptive, hlkC, hgtC, walkForest]
  · unfold CheckMinSdkVersion
    simp only [hfin, Bool.false_eq_true, if_false]
    rw [walkForest_singleton]
    simp [walkTree, minSdkCallback, edgeAdbd, hlkA, hgtA]
